import Mathlib

/-!
Verification of the Kakurasu solver (`kakurasu_solver.py`).

The Python source is embedded shallowly:

* boards are `List (List Bool)`, target vectors are `List Int`;
* Python's binary string formatting (`format(i, '{}b'.format(depth))`) is
  modelled on `List Char`, including the space padding and the `'-'` sign;
* the recursive `solve` is realised with an explicit fuel argument that
  matches its termination measure (`len(board) - row`), so that the whole
  development is executable by the kernel;
* Python list indexing is modelled with `List.getD`; the claims considered
  here only exercise in-range indices, where `getD` agrees with Python;
* a second, heap-passing embedding (`solveH` below) models Python's object
  identities and `deepcopy`, in order to state the frame property that
  `solve` never mutates the board object given by the caller.
-/

/-! ### Weighted sums and binary values of boolean vectors -/

/-- Weighted sum of a boolean vector where position `k` (0-indexed)
contributes `s + k + 1` when true. -/
def wsumFrom : Nat → List Bool → Nat
  | _, [] => 0
  | s, b :: bs => (if b then s + 1 else 0) + wsumFrom (s + 1) bs

/-- Weighted sum of a boolean vector: position `k` contributes `k + 1` when
true.  This is the "weighted sum" of the specification. -/
def wsum (v : List Bool) : Nat := wsumFrom 0 v

/-- Numeric value of a little-endian list of bits. -/
def bitsVal : List Bool → Nat
  | [] => 0
  | b :: bs => (if b then 1 else 0) + 2 * bitsVal bs

/-- The `d` low little-endian bits of `n`. -/
def toBits : Nat → Nat → List Bool
  | _, 0 => []
  | n, d + 1 => (n % 2 == 1) :: toBits (n / 2) d

/-- Triangular numbers: `tri n = 0 + 1 + ... + (n - 1)`. -/
def tri : Nat → Nat
  | 0 => 0
  | n + 1 => tri n + n

/-! ### Python binary formatting, embedded on `List Char` -/

/-- Little-endian binary digit characters of `n` (empty for `0`); the fuel
argument makes the division recursion structural. -/
def natBitsAux : Nat → Nat → List Char
  | 0, _ => []
  | fuel + 1, n =>
    if n = 0 then [] else (if n % 2 = 1 then '1' else '0') :: natBitsAux fuel (n / 2)

/-- Little-endian binary digit characters of `n` (empty for `0`). -/
def natBits (n : Nat) : List Char := natBitsAux n n

/-- Binary digits of `n`, most significant first, as Python `format(n, 'b')`
renders them (`"0"` for zero, no leading zeros otherwise). -/
def natBinDigits (n : Nat) : List Char :=
  if n = 0 then ['0'] else (natBits n).reverse

/-- Binary rendering of an integer, as Python `format(i, 'b')`: a `'-'` sign
followed by the digits of the absolute value when negative. -/
def intBin (i : Int) : List Char :=
  if i < 0 then '-' :: natBinDigits i.natAbs else natBinDigits i.toNat

/-- Left-pad with spaces to width `w`: Python's right-aligned, space-filled
minimum-width formatting. -/
def padLeft (w : Nat) (l : List Char) : List Char :=
  List.replicate (w - l.length) ' ' ++ l

/-- Python `format(i, '{}b'.format(w))`. -/
def pyFormatB (i : Int) (w : Nat) : List Char := padLeft w (intBin i)

/-- The summation loop of `naturals`
(`for j in range(len(binary)): if binary[j] == '1': sum += depth - j`),
processing the suffix of the string that starts at index `j`. -/
def pySumAux (depth : Nat) : List Char → Nat → Int
  | [], _ => 0
  | c :: rest, j => (if c == '1' then (depth : Int) - j else 0) + pySumAux depth rest (j + 1)

/-- The value of `sum` computed by `naturals` for one formatted string. -/
def pySum (binary : List Char) (depth : Nat) : Int := pySumAux depth binary 0

/-- Python `range(lo, hi)` over integers. -/
def pyRange (lo hi : Int) : List Int :=
  (List.range (hi - lo).toNat).map (fun k : Nat => lo + (k : Int))

/-! ### The Row Expander `naturals` -/

/-- One iteration of the loop body of `naturals`: format `i` in binary with
minimum width `depth`, compute the weighted digit sum, and keep the reversed
boolean pattern when the sum hits the target. -/
def naturalsStep (target : Int) (depth : Nat) (i : Int) : Option (List Bool) :=
  let binary := pyFormatB i depth
  if pySum binary depth = target then some (binary.reverse.map (fun x => x == '1'))
  else none

/-- `naturals(target, depth)` from the source: iterate `i` over
`range(target, 2 ** depth)` and collect the matching patterns in order. -/
def naturals (target : Int) (depth : Nat) : List (List Bool) :=
  (pyRange target ((2 : Int) ^ depth)).filterMap (naturalsStep target depth)

/-! ### The consistency check `state` -/

/-- The inner loop of `state`: the weighted sum of column `i`
(`for j in range(len(board[i])): if board[j][i]: vers += j + 1`). -/
def colVers (board : List (List Bool)) (i : Nat) : Nat :=
  (List.range (board.getD i []).length).foldr
    (fun j acc => if (board.getD j []).getD i false then (j + 1) + acc else acc) 0

/-- The column scan of `state` starting at column `i` with `f` columns left:
return `vers - ver[i]` at the first column whose weighted sum misses its
target, and `0` if every remaining column matches. -/
def stateFrom (board : List (List Bool)) (ver : List Int) : Nat → Nat → Int
  | _, 0 => 0
  | i, f + 1 =>
    if (colVers board i : Int) = ver.getD i 0 then stateFrom board ver (i + 1) f
    else (colVers board i : Int) - ver.getD i 0

/-- `state(board, hor, ver)` from the source (the `hor` parameter of the
Python function is unused there and is dropped here): `0` means solved,
positive means invalid, negative means unfinished. -/
def state (board : List (List Bool)) (ver : List Int) : Int :=
  stateFrom board ver 0 board.length

/-! ### The Board Solver `solve` -/

/-- The `for i in choices` loop of `solve`.  `recur` is the recursive call at
`row + 1`; `board.set row c` is the value of `newboard` after
`newboard = deepcopy(board); newboard[row] = i`. -/
def tryChoices (recur : List (List Bool) → Option (List (List Bool)))
    (board : List (List Bool)) (ver : List Int) (row : Nat) :
    List (List Bool) → Option (List (List Bool))
  | [] => none
  | c :: rest =>
    match (if row < board.length - 1 then recur (board.set row c)
           else some (board.set row c)) with
    | some nb => if state nb ver = 0 then some nb else tryChoices recur board ver row rest
    | none => tryChoices recur board ver row rest

/-- `solve` with explicit fuel; each recursive call moves to the next row, so
`len(board) - row` strictly decreases and the fuel below is never exhausted. -/
def solveF : Nat → List (List Bool) → List Int → List Int → Nat →
    Option (List (List Bool))
  | 0, _, _, _, _ => none
  | fuel + 1, board, hor, ver, row =>
    let curstate := state board ver
    if 0 < curstate then none
    else if curstate = 0 then some board
    else
      tryChoices (fun nb => solveF fuel nb hor ver (row + 1)) board ver row
        (naturals (hor.getD row 0) (board.getD row []).length)

/-- `solve(board, hor, ver, row)` from the source. -/
def solve (board : List (List Bool)) (hor ver : List Int) (row : Nat) :
    Option (List (List Bool)) :=
  solveF (board.length + 1 - row) board hor ver row

/-- Column weighted sum as the specification words it: the sum over rows `r`
of `r + 1` when cell `(r, c)` is filled.  Defined for comparison with the
source-derived `colVers`; the two agree on square boards. -/
def colWeight (board : List (List Bool)) (c : Nat) : Nat :=
  (List.range board.length).foldr
    (fun r acc => if (board.getD r []).getD c false then (r + 1) + acc else acc) 0

/-! ### A heap model of Python object identities for `solve` -/

/-- A Python heap object: an outer board list (a list of addresses of row
objects) or a row list (a list of booleans). -/
inductive PyObj where
  | arr (rows : List Nat)
  | row (cells : List Bool)
deriving DecidableEq

/-- Read an address; out-of-range reads yield an empty row object (the
scenarios considered only dereference live addresses). -/
def heapGet (h : List PyObj) (a : Nat) : PyObj := h.getD a (.row [])

/-- The boolean list held by a row object. -/
def getRowVal (h : List PyObj) (r : Nat) : List Bool :=
  match heapGet h r with
  | .row cs => cs
  | .arr _ => []

/-- The board value denoted by the outer object at address `a`. -/
def boardVal (h : List PyObj) (a : Nat) : List (List Bool) :=
  match heapGet h a with
  | .arr rows => rows.map (getRowVal h)
  | .row _ => []

/-- Allocate a new object, returning the extended heap and the fresh
address. -/
def alloc (h : List PyObj) (o : PyObj) : List PyObj × Nat := (h ++ [o], h.length)

/-- Copy the row objects named by the address list into fresh objects (the
inner part of `deepcopy`). -/
def copyRows : List PyObj → List Nat → List PyObj × List Nat
  | h, [] => (h, [])
  | h, r :: rs =>
    let p := alloc h (.row (getRowVal h r))
    let q := copyRows p.1 rs
    (q.1, p.2 :: q.2)

/-- Python `deepcopy` of a board object: fresh copies of all row objects,
then a fresh outer list pointing at the copies. -/
def deepcopy (h : List PyObj) (a : Nat) : List PyObj × Nat :=
  match heapGet h a with
  | .arr rows =>
    let p := copyRows h rows
    alloc p.1 (.arr p.2)
  | .row cs => alloc h (.row cs)

/-- `newboard[row] = i`: mutate slot `row` of the outer object at `a` so that
it points at the row object `ca`. -/
def setArrSlot (h : List PyObj) (a row ca : Nat) : List PyObj :=
  match heapGet h a with
  | .arr rows => h.set a (.arr (rows.set row ca))
  | .row _ => h

/-- The `for i in choices` loop of `solve`, on the heap model: deep-copy the
board, allocate the candidate row, install it in the copy, recurse, and keep
the resulting address when the result passes `state`. -/
def tryChoicesH (recur : List PyObj → Nat → List PyObj × Option Nat)
    (a : Nat) (ver : List Int) (row : Nat) :
    List PyObj → List (List Bool) → List PyObj × Option Nat
  | h, [] => (h, none)
  | h, c :: rest =>
    let p := deepcopy h a
    let q := alloc p.1 (.row c)
    let h3 := setArrSlot q.1 p.2 row q.2
    let pr := if row < (boardVal h3 a).length - 1 then recur h3 p.2 else (h3, some p.2)
    match pr.2 with
    | some b =>
      if state (boardVal pr.1 b) ver = 0 then (pr.1, some b)
      else tryChoicesH recur a ver row pr.1 rest
    | none => tryChoicesH recur a ver row pr.1 rest

/-- `solve` on the heap model, with the same fuel discipline as `solveF`:
returns the final heap together with an optional address of a solved
board. -/
def solveH : Nat → List PyObj → Nat → List Int → List Int → Nat →
    List PyObj × Option Nat
  | 0, h, _, _, _, _ => (h, none)
  | fuel + 1, h, a, hor, ver, row =>
    let board := boardVal h a
    let curstate := state board ver
    if 0 < curstate then (h, none)
    else if curstate = 0 then (h, some a)
    else
      tryChoicesH (fun h2 a2 => solveH fuel h2 a2 hor ver (row + 1)) a ver row h
        (naturals (hor.getD row 0) (board.getD row []).length)

/-- The row-address list of an outer object (empty for row objects). -/
def arrRows : PyObj → List Nat
  | .arr rows => rows
  | .row _ => []

/-- `h2` preserves every object of `h`: it is at least as long and agrees on
all addresses that were live in `h`. -/
def heapExtends (h h2 : List PyObj) : Prop :=
  h.length ≤ h2.length ∧ ∀ x, x < h.length → heapGet h2 x = heapGet h x

/-! ### Lemmas: bits, values, weighted sums -/

theorem toBits_length : ∀ (d n : Nat), (toBits n d).length = d
  | 0, _ => rfl
  | d + 1, n => by simp [toBits, toBits_length d]

theorem toBits_zero : ∀ e, toBits 0 e = List.replicate e false
  | 0 => rfl
  | e + 1 => by simp [toBits, toBits_zero e, List.replicate_succ]

theorem natBitsAux_congr : ∀ (f₁ f₂ n : Nat), n ≤ f₁ → n ≤ f₂ →
    natBitsAux f₁ n = natBitsAux f₂ n := by
  intro f₁
  induction f₁ with
  | zero =>
    intro f₂ n h₁ _
    have hn : n = 0 := by omega
    subst hn
    cases f₂ <;> simp [natBitsAux]
  | succ f ih =>
    intro f₂ n h₁ h₂
    by_cases hn : n = 0
    · subst hn; cases f₂ <;> simp [natBitsAux]
    · obtain ⟨f₂', rfl⟩ : ∃ m, f₂ = m + 1 := by
        cases f₂ with
        | zero => omega
        | succ m => exact ⟨m, rfl⟩
      simp only [natBitsAux, if_neg hn]
      rw [ih f₂' (n / 2) (by omega) (by omega)]

theorem natBits_succ (n : Nat) (h : 1 ≤ n) :
    natBits n = (if n % 2 = 1 then '1' else '0') :: natBits (n / 2) := by
  obtain ⟨m, rfl⟩ : ∃ m, n = m + 1 := ⟨n - 1, by omega⟩
  show natBitsAux (m + 1) (m + 1) = _
  simp only [natBitsAux, if_neg (by omega : ¬ m + 1 = 0)]
  congr 1
  exact natBitsAux_congr m ((m + 1) / 2) ((m + 1) / 2) (by omega) (by omega)

theorem natBits_map_eq_toBits : ∀ n : Nat,
    (natBits n).map (fun c => c == '1') = toBits n (natBits n).length := by
  intro n
  induction n using Nat.strong_induction_on with
  | _ n ih =>
    by_cases hn : n = 0
    · subst hn; rfl
    · rw [natBits_succ n (by omega)]
      simp only [List.map_cons, List.length_cons, toBits]
      congr 1
      · rcases Nat.mod_two_eq_zero_or_one n with h | h <;> rw [h] <;> decide
      · exact ih (n / 2) (Nat.div_lt_self (by omega) (by omega))

theorem natBits_length_le : ∀ n d : Nat, n < 2 ^ d → (natBits n).length ≤ d := by
  intro n
  induction n using Nat.strong_induction_on with
  | _ n ih =>
    intro d h
    by_cases hn : n = 0
    · subst hn; simp [natBits, natBitsAux]
    · cases d with
      | zero => simp at h; omega
      | succ d =>
        rw [natBits_succ n (by omega)]
        simp only [List.length_cons]
        have h2 : n / 2 < 2 ^ d := by
          rw [Nat.div_lt_iff_lt_mul (by omega)]
          calc n < 2 ^ (d + 1) := h
            _ = 2 ^ d * 2 := pow_succ 2 d
        have := ih (n / 2) (Nat.div_lt_self (by omega) (by omega)) d h2
        omega

theorem lt_two_pow_natBits : ∀ n : Nat, n < 2 ^ (natBits n).length := by
  intro n
  induction n using Nat.strong_induction_on with
  | _ n ih =>
    by_cases hn : n = 0
    · subst hn; simp [natBits, natBitsAux]
    · rw [natBits_succ n (by omega)]
      simp only [List.length_cons, pow_succ]
      have := ih (n / 2) (Nat.div_lt_self (by omega) (by omega))
      omega

theorem two_pow_pred_le_natBits : ∀ n : Nat, 1 ≤ n → 2 ^ ((natBits n).length - 1) ≤ n := by
  intro n
  induction n using Nat.strong_induction_on with
  | _ n ih =>
    intro h1
    rw [natBits_succ n h1]
    simp only [List.length_cons, Nat.add_sub_cancel]
    by_cases h2 : n / 2 = 0
    · rw [h2]
      simp only [natBits, natBitsAux, List.length_nil, pow_zero]
      omega
    · have hlen : 1 ≤ (natBits (n / 2)).length := by
        rw [natBits_succ (n / 2) (by omega)]
        simp
      have hrec := ih (n / 2) (Nat.div_lt_self (by omega) (by omega)) (by omega)
      have hpow : 2 ^ (natBits (n / 2)).length = 2 * 2 ^ ((natBits (n / 2)).length - 1) := by
        obtain ⟨m, hm⟩ : ∃ m, (natBits (n / 2)).length = m + 1 :=
          ⟨(natBits (n / 2)).length - 1, by omega⟩
        rw [hm, pow_succ]
        simp only [Nat.add_sub_cancel]
        ring
      omega

theorem bitsVal_toBits : ∀ (d n : Nat), bitsVal (toBits n d) = n % 2 ^ d := by
  intro d
  induction d with
  | zero => intro n; simp [toBits, bitsVal, Nat.mod_one]
  | succ d ih =>
    intro n
    simp only [toBits, bitsVal, ih (n / 2)]
    have h2 : (if (n % 2 == 1) = true then 1 else 0) = n % 2 := by
      rcases Nat.mod_two_eq_zero_or_one n with h | h <;> simp [h]
    rw [h2, pow_succ, Nat.mul_comm (2 ^ d) 2]
    exact Nat.mod_mul.symm

theorem toBits_bitsVal : ∀ v : List Bool, toBits (bitsVal v) v.length = v := by
  intro v
  induction v with
  | nil => rfl
  | cons b bs ih =>
    simp only [bitsVal, List.length_cons, toBits]
    have hmod : ((if b then 1 else 0) + 2 * bitsVal bs) % 2 = if b then 1 else 0 := by
      cases b <;> (try simp) <;> omega
    have hdiv : ((if b then 1 else 0) + 2 * bitsVal bs) / 2 = bitsVal bs := by
      cases b <;> (try simp) <;> omega
    rw [hmod, hdiv, ih]
    cases b <;> simp

theorem bitsVal_lt : ∀ v : List Bool, bitsVal v < 2 ^ v.length := by
  intro v
  induction v with
  | nil => simp [bitsVal]
  | cons b bs ih =>
    simp only [bitsVal, List.length_cons, pow_succ]
    cases b <;> (try simp) <;> omega

theorem toBits_append_replicate : ∀ (d n : Nat), n < 2 ^ d → ∀ e,
    toBits n (d + e) = toBits n d ++ List.replicate e false := by
  intro d
  induction d with
  | zero =>
    intro n h e
    have hn : n = 0 := by simpa using h
    subst hn
    simp [toBits, toBits_zero]
  | succ d ih =>
    intro n h e
    have h2 : n / 2 < 2 ^ d := by
      rw [Nat.div_lt_iff_lt_mul (by omega)]
      calc n < 2 ^ (d + 1) := h
        _ = 2 ^ d * 2 := pow_succ 2 d
    have hstep : d + 1 + e = (d + e) + 1 := by omega
    rw [hstep]
    simp only [toBits]
    rw [ih (n / 2) h2 e]
    simp [List.cons_append]

theorem wsumFrom_append_single : ∀ (v : List Bool) (s : Nat) (b : Bool),
    wsumFrom s (v ++ [b]) = wsumFrom s v + (if b then s + v.length + 1 else 0) := by
  intro v
  induction v with
  | nil =>
    intro s b
    cases b <;> simp [wsumFrom]
  | cons a v ih =>
    intro s b
    have heq := ih (s + 1) b
    simp only [List.cons_append, wsumFrom, List.length_cons, List.append_eq]
    rw [heq]
    cases a <;> cases b <;> (try simp) <;> omega

theorem wsumFrom_le : ∀ (v : List Bool) (s : Nat), wsumFrom s v ≤ 2 ^ s * bitsVal v := by
  intro v
  induction v with
  | nil => intro s; simp [wsumFrom, bitsVal]
  | cons b bs ih =>
    intro s
    have h2 : s + 1 ≤ 2 ^ s := Nat.lt_two_pow s
    have h1 : wsumFrom (s + 1) bs ≤ 2 ^ s * (2 * bitsVal bs) :=
      calc wsumFrom (s + 1) bs ≤ 2 ^ (s + 1) * bitsVal bs := ih (s + 1)
        _ = 2 ^ s * (2 * bitsVal bs) := by rw [pow_succ]; ring
    simp only [wsumFrom, bitsVal]
    cases b
    · rw [if_neg (by decide), if_neg (by decide)]
      have h4 : 2 ^ s * (0 + 2 * bitsVal bs) = 2 ^ s * (2 * bitsVal bs) := by ring
      omega
    · rw [if_pos rfl, if_pos rfl]
      have h3 : 2 ^ s * (1 + 2 * bitsVal bs) = 2 ^ s + 2 ^ s * (2 * bitsVal bs) := by ring
      omega

theorem wsum_le_bitsVal (v : List Bool) : wsum v ≤ bitsVal v := by
  have := wsumFrom_le v 0
  simpa [wsum] using this

theorem wsumFrom_replicate_false : ∀ (d s : Nat), wsumFrom s (List.replicate d false) = 0 := by
  intro d
  induction d with
  | zero => intro s; rfl
  | succ d ih => intro s; simp [List.replicate_succ, wsumFrom, ih]

/-! ### Lemmas: the formatted-string computation of `naturals` -/

theorem pySumAux_eq_wsum : ∀ (l : List Char) (d j : Nat), l.length + j = d →
    pySumAux d l j = (wsum (l.reverse.map (fun x => x == '1')) : Int) := by
  intro l
  induction l with
  | nil => intro d j _; simp [pySumAux, wsum, wsumFrom]
  | cons c rest ih =>
    intro d j h
    have hlen : rest.length + (j + 1) = d := by
      simp only [List.length_cons] at h; omega
    have hmaplen : (rest.reverse.map (fun x => x == '1')).length = rest.length := by simp
    simp only [pySumAux, List.reverse_cons, List.map_append, List.map_cons, List.map_nil]
    rw [ih d (j + 1) hlen]
    have hw : wsum (rest.reverse.map (fun x => x == '1') ++ [(c == '1')])
        = wsum (rest.reverse.map (fun x => x == '1'))
          + (if (c == '1') = true then rest.length + 1 else 0) := by
      unfold wsum
      rw [wsumFrom_append_single, hmaplen]
      congr 1
      cases c == '1' <;> simp
    rw [hw]
    cases hc : c == '1' <;> (try simp) <;> push_cast <;> omega

theorem intBin_natCast (n : Nat) : intBin (n : Int) = natBinDigits n := by
  unfold intBin
  rw [if_neg (by omega), Int.toNat_natCast]

theorem natBinDigits_length_le (n d : Nat) (hd : 1 ≤ d) (h : n < 2 ^ d) :
    (natBinDigits n).length ≤ d := by
  unfold natBinDigits
  by_cases hn : n = 0
  · rw [if_pos hn]; simpa using hd
  · rw [if_neg hn]
    simp only [List.length_reverse]
    exact natBits_length_le n d h

theorem padLeft_length (w : Nat) (l : List Char) (h : l.length ≤ w) :
    (padLeft w l).length = w := by
  unfold padLeft
  simp only [List.length_append, List.length_replicate]
  omega

theorem pyFormatB_nat_length (n d : Nat) (hd : 1 ≤ d) (h : n < 2 ^ d) :
    (pyFormatB (n : Int) d).length = d := by
  unfold pyFormatB
  rw [intBin_natCast]
  exact padLeft_length d _ (natBinDigits_length_le n d hd h)

theorem pyFormatB_nat_rev (n d : Nat) (hd : 1 ≤ d) (hn : n < 2 ^ d) :
    (pyFormatB (n : Int) d).reverse.map (fun x => x == '1') = toBits n d := by
  unfold pyFormatB padLeft
  rw [intBin_natCast, List.reverse_append, List.reverse_replicate, List.map_append,
    List.map_replicate]
  have hL : (natBinDigits n).length ≤ d := natBinDigits_length_le n d hd hn
  by_cases hn0 : n = 0
  · subst hn0
    have h0 : natBinDigits 0 = ['0'] := rfl
    rw [h0] at hL ⊢
    rw [toBits_zero]
    obtain ⟨d1, rfl⟩ : ∃ m, d = m + 1 := ⟨d - 1, by omega⟩
    have e1 : ((' ' : Char) == '1') = false := rfl
    have e2 : (('0' : Char) == '1') = false := rfl
    simp only [List.reverse_cons, List.reverse_nil, List.nil_append, List.map_cons,
      List.map_nil, e1, e2, List.length_cons, List.length_nil]
    rw [List.replicate_succ]
    simp
  · have hd1 : natBinDigits n = (natBits n).reverse := by
      unfold natBinDigits; rw [if_neg hn0]
    have hlen2 : (natBinDigits n).length = (natBits n).length := by
      rw [hd1]; simp
    rw [hd1, List.reverse_reverse, natBits_map_eq_toBits n, List.length_reverse]
    have e1 : ((' ' : Char) == '1') = false := rfl
    rw [e1]
    have hdL : (natBits n).length + (d - (natBits n).length) = d := by
      rw [hlen2] at hL; omega
    calc toBits n (natBits n).length ++ List.replicate (d - (natBits n).length) false
        = toBits n ((natBits n).length + (d - (natBits n).length)) :=
          (toBits_append_replicate (natBits n).length n (lt_two_pow_natBits n) _).symm
      _ = toBits n d := by rw [hdL]

/-! ### Lemmas: correctness of the Row Expander -/

theorem mem_pyRange (lo hi i : Int) : i ∈ pyRange lo hi ↔ lo ≤ i ∧ i < hi := by
  unfold pyRange
  rw [List.mem_map]
  constructor
  · rintro ⟨k, hk, rfl⟩
    rw [List.mem_range] at hk
    omega
  · intro h
    refine ⟨(i - lo).toNat, ?_, ?_⟩
    · rw [List.mem_range]
      omega
    · omega

theorem naturalsStep_natCast (t : Int) (d n : Nat) (hd : 1 ≤ d) (hn : n < 2 ^ d) :
    naturalsStep t d (n : Int) =
      if (wsum (toBits n d) : Int) = t then some (toBits n d) else none := by
  have hrev := pyFormatB_nat_rev n d hd hn
  have hlen : (pyFormatB (n : Int) d).length = d := pyFormatB_nat_length n d hd hn
  have hsum : pySum (pyFormatB (n : Int) d) d = (wsum (toBits n d) : Int) := by
    unfold pySum
    rw [pySumAux_eq_wsum _ d 0 (by omega), hrev]
  simp only [naturalsStep, hsum, hrev]

theorem two_pow_int_cast (d : Nat) : ((2 : Int) ^ d) = ((2 ^ d : Nat) : Int) := by
  push_cast
  ring

theorem naturals_sound (t : Int) (d : Nat) (ht : 0 ≤ t) (hd : 1 ≤ d) :
    ∀ v ∈ naturals t d, v.length = d ∧ (wsum v : Int) = t := by
  intro v hv
  unfold naturals at hv
  rw [List.mem_filterMap] at hv
  obtain ⟨i, hi, hstep⟩ := hv
  rw [mem_pyRange] at hi
  have h0 : 0 ≤ i := le_trans ht hi.1
  obtain ⟨n, rfl⟩ : ∃ n : Nat, i = (n : Int) := ⟨i.toNat, (Int.toNat_of_nonneg h0).symm⟩
  have h2 := two_pow_int_cast d
  have hn : n < 2 ^ d := by
    have := hi.2
    omega
  rw [naturalsStep_natCast t d n hd hn] at hstep
  by_cases hc : (wsum (toBits n d) : Int) = t
  · rw [if_pos hc] at hstep
    injection hstep with hstep
    subst hstep
    exact ⟨toBits_length d n, hc⟩
  · rw [if_neg hc] at hstep
    cases hstep

theorem naturals_exhaustive (t : Int) (d : Nat) (hd : 1 ≤ d) :
    ∀ v : List Bool, v.length = d → (wsum v : Int) = t → v ∈ naturals t d := by
  intro v hlen hsum
  unfold naturals
  rw [List.mem_filterMap]
  have hn : bitsVal v < 2 ^ d := by rw [← hlen]; exact bitsVal_lt v
  refine ⟨((bitsVal v : Nat) : Int), ?_, ?_⟩
  · rw [mem_pyRange]
    have hle := wsum_le_bitsVal v
    have h2 := two_pow_int_cast d
    constructor
    · omega
    · omega
  · rw [naturalsStep_natCast t d (bitsVal v) hd hn]
    have hv : toBits (bitsVal v) d = v := by rw [← hlen]; exact toBits_bitsVal v
    rw [hv, if_pos hsum]

theorem nodup_filterMap_local {α β : Type} (f : α → Option β) :
    ∀ l : List α, l.Nodup →
      (∀ a1 ∈ l, ∀ a2 ∈ l, ∀ b, f a1 = some b → f a2 = some b → a1 = a2) →
      (l.filterMap f).Nodup := by
  intro l
  induction l with
  | nil => intro _ _; simp
  | cons a l ih =>
    intro hnd hinj
    rw [List.nodup_cons] at hnd
    obtain ⟨hna, hnd⟩ := hnd
    rw [List.filterMap_cons]
    have hinjl : ∀ a1 ∈ l, ∀ a2 ∈ l, ∀ b, f a1 = some b → f a2 = some b → a1 = a2 :=
      fun x hx y hy b h1 h2 =>
        hinj x (List.mem_cons_of_mem a hx) y (List.mem_cons_of_mem a hy) b h1 h2
    cases hfa : f a with
    | none => exact ih hnd hinjl
    | some b =>
      rw [List.nodup_cons]
      constructor
      · intro hmem
        rw [List.mem_filterMap] at hmem
        obtain ⟨x, hx, hfx⟩ := hmem
        have hax : a = x :=
          hinj a (List.mem_cons_self a l) x (List.mem_cons_of_mem a hx) b hfa hfx
        rw [hax] at hna
        exact hna hx
      · exact ih hnd hinjl

theorem pyRange_nodup (lo hi : Int) : (pyRange lo hi).Nodup := by
  unfold pyRange
  refine List.Nodup.map ?_ (List.nodup_range _)
  intro x y h
  have h2 : lo + (x : Int) = lo + (y : Int) := h
  omega

theorem naturals_nodup (t : Int) (d : Nat) (ht : 0 ≤ t) (hd : 1 ≤ d) :
    (naturals t d).Nodup := by
  unfold naturals
  apply nodup_filterMap_local _ _ (pyRange_nodup _ _)
  intro i hi j hj v hsi hsj
  rw [mem_pyRange] at hi hj
  have h2 := two_pow_int_cast d
  obtain ⟨n, rfl⟩ : ∃ n : Nat, i = (n : Int) :=
    ⟨i.toNat, (Int.toNat_of_nonneg (le_trans ht hi.1)).symm⟩
  obtain ⟨m, rfl⟩ : ∃ m : Nat, j = (m : Int) :=
    ⟨j.toNat, (Int.toNat_of_nonneg (le_trans ht hj.1)).symm⟩
  have hn : n < 2 ^ d := by have := hi.2; omega
  have hm : m < 2 ^ d := by have := hj.2; omega
  rw [naturalsStep_natCast t d n hd hn] at hsi
  rw [naturalsStep_natCast t d m hd hm] at hsj
  have hvi : toBits n d = v := by
    by_cases hc : (wsum (toBits n d) : Int) = t
    · rw [if_pos hc] at hsi; exact Option.some.inj hsi
    · rw [if_neg hc] at hsi; cases hsi
  have hvj : toBits m d = v := by
    by_cases hc : (wsum (toBits m d) : Int) = t
    · rw [if_pos hc] at hsj; exact Option.some.inj hsj
    · rw [if_neg hc] at hsj; cases hsj
  have h1 : bitsVal v = n := by
    rw [← hvi, bitsVal_toBits]
    exact Nat.mod_eq_of_lt hn
  have h3 : bitsVal v = m := by
    rw [← hvj, bitsVal_toBits]
    exact Nat.mod_eq_of_lt hm
  omega

/-! ### Lemmas: no matches for unsatisfiable targets -/

theorem pySumAux_nonneg : ∀ (s : List Char) (d j : Nat), j + s.length ≤ d →
    0 ≤ pySumAux d s j := by
  intro s
  induction s with
  | nil => intro d j _; simp [pySumAux]
  | cons c rest ih =>
    intro d j h
    simp only [List.length_cons] at h
    have h1 : 0 ≤ pySumAux d rest (j + 1) := ih d (j + 1) (by omega)
    have h2 : (0 : Int) ≤ if c == '1' then (d : Int) - j else 0 := by
      cases hc : c == '1' <;> (try simp) <;> omega
    simp only [pySumAux]
    omega

theorem pySumAux_ge : ∀ (s : List Char) (d j : Nat), 1 ≤ d → 1 ≤ j →
    -(((j - 1) * s.length + tri s.length : Nat) : Int) ≤ pySumAux d s j := by
  intro s
  induction s with
  | nil => intro d j _ _; simp [pySumAux, tri]
  | cons c rest ih =>
    intro d j hd hj
    obtain ⟨j1, rfl⟩ : ∃ m, j = m + 1 := ⟨j - 1, by omega⟩
    have hrest := ih d (j1 + 1 + 1) hd (by omega)
    simp only [Nat.add_sub_cancel] at hrest
    simp only [pySumAux, List.length_cons, Nat.add_sub_cancel]
    have hhead : (1 : Int) - ((j1 : Int) + 1) ≤
        (if c == '1' then (d : Int) - ((j1 : Nat) + 1 : Nat) else 0) := by
      cases hc : c == '1' <;> (try simp) <;> push_cast <;> omega
    have hkey : -((j1 * (rest.length + 1) + tri (rest.length + 1) : Nat) : Int)
        = (1 - ((j1 : Int) + 1)) + -(((j1 + 1) * rest.length + tri rest.length : Nat) : Int) := by
      simp only [tri]
      push_cast
      ring
    rw [hkey]
    exact add_le_add hhead hrest

theorem tri_lt_two_pow : ∀ L : Nat, 1 ≤ L → tri L < 2 ^ (L - 1) := by
  intro L
  induction L with
  | zero => intro h; omega
  | succ L ih =>
    intro _
    by_cases hL : L = 0
    · subst hL
      simp [tri]
    · have h1 := ih (by omega)
      have h2 : L ≤ 2 ^ (L - 1) := by
        have := Nat.lt_two_pow (L - 1)
        omega
      have h3 : 2 ^ (L + 1 - 1) = 2 ^ (L - 1) + 2 ^ (L - 1) := by
        obtain ⟨m, rfl⟩ : ∃ m, L = m + 1 := ⟨L - 1, by omega⟩
        simp only [Nat.add_sub_cancel]
        rw [pow_succ]
        ring
      simp only [tri]
      omega

theorem naturals_neg_empty (t : Int) (d : Nat) (hd : 1 ≤ d) (ht : t < 0) :
    naturals t d = [] := by
  unfold naturals
  rw [List.filterMap_eq_nil_iff]
  intro i hi
  rw [mem_pyRange] at hi
  have hne : pySum (pyFormatB i d) d ≠ t := by
    rcases le_or_lt 0 i with hpos | hneg
    · obtain ⟨n, rfl⟩ : ∃ n : Nat, i = (n : Int) := ⟨i.toNat, (Int.toNat_of_nonneg hpos).symm⟩
      have h2 := two_pow_int_cast d
      have hn : n < 2 ^ d := by have := hi.2; omega
      have hlen := pyFormatB_nat_length n d hd hn
      have hge := pySumAux_nonneg (pyFormatB (n : Int) d) d 0 (by omega)
      unfold pySum
      omega
    · obtain ⟨m, him, hm1⟩ : ∃ m : Nat, i = -(m : Int) ∧ 1 ≤ m := ⟨i.natAbs, by omega, by omega⟩
      subst him
      have habs : (-((m : Nat) : Int)).natAbs = m := by omega
      have hfmt : pyFormatB (-((m : Nat) : Int)) d = padLeft d ('-' :: natBinDigits m) := by
        unfold pyFormatB intBin
        rw [if_pos hneg, habs]
      by_cases hcase : (natBinDigits m).length + 1 ≤ d
      · have hlen : (padLeft d ('-' :: natBinDigits m)).length = d :=
          padLeft_length d _ (by simp only [List.length_cons]; omega)
        have hge := pySumAux_nonneg (padLeft d ('-' :: natBinDigits m)) d 0 (by omega)
        rw [hfmt]
        unfold pySum
        omega
      · have hm0 : ¬ m = 0 := by omega
        have hLL : (natBinDigits m).length = (natBits m).length := by
          unfold natBinDigits
          rw [if_neg hm0]
          simp
        have hL1 : 1 ≤ (natBits m).length := by
          rw [natBits_succ m hm1]
          simp
        have hpad : padLeft d ('-' :: natBinDigits m) = '-' :: natBinDigits m := by
          unfold padLeft
          have hz : d - ('-' :: natBinDigits m).length = 0 := by
            simp only [List.length_cons]
            omega
          rw [hz]
          simp
        rw [hfmt, hpad]
        unfold pySum
        simp only [pySumAux]
        rw [if_neg (by decide)]
        simp only [Nat.zero_add, zero_add]
        have hge := pySumAux_ge (natBinDigits m) d 1 hd (le_refl 1)
        simp only [Nat.sub_self, Nat.zero_mul, Nat.zero_add] at hge
        rw [hLL] at hge
        have htri : tri (natBits m).length < 2 ^ ((natBits m).length - 1) :=
          tri_lt_two_pow (natBits m).length hL1
        have hpow : 2 ^ ((natBits m).length - 1) ≤ m := two_pow_pred_le_natBits m hm1
        have hti : t ≤ -((m : Nat) : Int) := hi.1
        omega
  simp only [naturalsStep]
  rw [if_neg hne]

theorem naturals_empty_of_big_target (t : Int) (d : Nat) (ht : (2 : Int) ^ d ≤ t) :
    naturals t d = [] := by
  unfold naturals
  rw [List.filterMap_eq_nil_iff]
  intro i hi
  rw [mem_pyRange] at hi
  omega

/-! ### Lemmas: classification behaviour of `state` -/

theorem colVers_eq_colWeight (board : List (List Bool)) (c : Nat)
    (hsq : ∀ r ∈ board, r.length = board.length) (hc : c < board.length) :
    colVers board c = colWeight board c := by
  unfold colVers colWeight
  have hmem : board.getD c [] ∈ board := by
    rw [List.getD_eq_getElem board [] hc]
    exact List.getElem_mem hc
  rw [hsq _ hmem]

theorem stateFrom_eq_zero_iff (board : List (List Bool)) (ver : List Int) :
    ∀ (f i : Nat), (stateFrom board ver i f = 0 ↔
      ∀ k, i ≤ k → k < i + f → (colVers board k : Int) = ver.getD k 0) := by
  intro f
  induction f with
  | zero =>
    intro i
    simp only [stateFrom]
    constructor
    · intro _ k hk1 hk2
      omega
    · intro _
      trivial
  | succ f ih =>
    intro i
    simp only [stateFrom]
    by_cases hm : (colVers board i : Int) = ver.getD i 0
    · rw [if_pos hm, ih (i + 1)]
      constructor
      · intro h k hk1 hk2
        by_cases hk : k = i
        · subst hk
          exact hm
        · exact h k (by omega) (by omega)
      · intro h k hk1 hk2
        exact h k (by omega) (by omega)
    · rw [if_neg hm]
      constructor
      · intro h
        exfalso
        apply hm
        omega
      · intro h
        exfalso
        exact hm (h i (le_refl i) (by omega))

theorem stateFrom_pos_iff (board : List (List Bool)) (ver : List Int) :
    ∀ (f i : Nat), (0 < stateFrom board ver i f ↔
      ∃ c, i ≤ c ∧ c < i + f ∧
        (∀ k, i ≤ k → k < c → (colVers board k : Int) = ver.getD k 0) ∧
        ver.getD c 0 < (colVers board c : Int)) := by
  intro f
  induction f with
  | zero =>
    intro i
    simp only [stateFrom]
    constructor
    · intro h
      exact absurd h (lt_irrefl 0)
    · rintro ⟨c, h1, h2, _, _⟩
      omega
  | succ f ih =>
    intro i
    simp only [stateFrom]
    by_cases hm : (colVers board i : Int) = ver.getD i 0
    · rw [if_pos hm, ih (i + 1)]
      constructor
      · rintro ⟨c, h1, h2, h3, h4⟩
        refine ⟨c, by omega, by omega, ?_, h4⟩
        intro k hk1 hk2
        by_cases hk : k = i
        · subst hk
          exact hm
        · exact h3 k (by omega) hk2
      · rintro ⟨c, h1, h2, h3, h4⟩
        have hci : ¬ c = i := by
          intro hc
          subst hc
          rw [hm] at h4
          exact lt_irrefl _ h4
        refine ⟨c, by omega, by omega, ?_, h4⟩
        intro k hk1 hk2
        exact h3 k (by omega) hk2
    · rw [if_neg hm]
      constructor
      · intro h
        refine ⟨i, le_refl i, by omega, ?_, by omega⟩
        intro k hk1 hk2
        omega
      · rintro ⟨c, h1, h2, h3, h4⟩
        by_cases hc : c = i
        · subst hc
          omega
        · exfalso
          exact hm (h3 i (le_refl i) (by omega))

theorem stateFrom_neg_iff (board : List (List Bool)) (ver : List Int) :
    ∀ (f i : Nat), (stateFrom board ver i f < 0 ↔
      ∃ c, i ≤ c ∧ c < i + f ∧
        (∀ k, i ≤ k → k < c → (colVers board k : Int) = ver.getD k 0) ∧
        (colVers board c : Int) < ver.getD c 0) := by
  intro f
  induction f with
  | zero =>
    intro i
    simp only [stateFrom]
    constructor
    · intro h
      exact absurd h (lt_irrefl 0)
    · rintro ⟨c, h1, h2, _, _⟩
      omega
  | succ f ih =>
    intro i
    simp only [stateFrom]
    by_cases hm : (colVers board i : Int) = ver.getD i 0
    · rw [if_pos hm, ih (i + 1)]
      constructor
      · rintro ⟨c, h1, h2, h3, h4⟩
        refine ⟨c, by omega, by omega, ?_, h4⟩
        intro k hk1 hk2
        by_cases hk : k = i
        · subst hk
          exact hm
        · exact h3 k (by omega) hk2
      · rintro ⟨c, h1, h2, h3, h4⟩
        have hci : ¬ c = i := by
          intro hc
          subst hc
          rw [hm] at h4
          exact lt_irrefl _ h4
        refine ⟨c, by omega, by omega, ?_, h4⟩
        intro k hk1 hk2
        exact h3 k (by omega) hk2
    · rw [if_neg hm]
      constructor
      · intro h
        refine ⟨i, le_refl i, by omega, ?_, by omega⟩
        intro k hk1 hk2
        omega
      · rintro ⟨c, h1, h2, h3, h4⟩
        by_cases hc : c = i
        · subst hc
          omega
        · exfalso
          exact hm (h3 i (le_refl i) (by omega))

/-! ### Lemmas: every board returned by `solve` passes the column check -/

theorem tryChoices_some (recur : List (List Bool) → Option (List (List Bool)))
    (board : List (List Bool)) (ver : List Int) (row : Nat) :
    ∀ (cs : List (List Bool)) (r : List (List Bool)),
      tryChoices recur board ver row cs = some r → state r ver = 0 := by
  intro cs
  induction cs with
  | nil =>
    intro r h
    simp [tryChoices] at h
  | cons c rest ih =>
    intro r h
    rw [tryChoices] at h
    split at h
    · split at h
      · rename_i hst
        injection h with h
        subst h
        exact hst
      · exact ih r h
    · exact ih r h

theorem solveF_some (fuel : Nat) (board : List (List Bool)) (hor ver : List Int)
    (row : Nat) (r : List (List Bool)) :
    solveF fuel board hor ver row = some r → state r ver = 0 := by
  cases fuel with
  | zero =>
    intro h
    simp [solveF] at h
  | succ fuel =>
    intro h
    simp only [solveF] at h
    split at h
    · exact Option.noConfusion h
    · split at h
      · rename_i hst
        injection h with h
        subst h
        exact hst
      · exact tryChoices_some _ board ver row _ r h

/-! ### Lemmas: `solve` only allocates, it never mutates pre-existing objects -/

theorem heapExtends_refl (h : List PyObj) : heapExtends h h :=
  ⟨le_refl _, fun _ _ => rfl⟩

theorem heapExtends_trans {h1 h2 h3 : List PyObj}
    (a : heapExtends h1 h2) (b : heapExtends h2 h3) : heapExtends h1 h3 :=
  ⟨le_trans a.1 b.1, fun x hx => by rw [b.2 x (lt_of_lt_of_le hx a.1), a.2 x hx]⟩

theorem getD_append_left {α : Type} : ∀ (l1 l2 : List α) (i : Nat) (d : α),
    i < l1.length → (l1 ++ l2).getD i d = l1.getD i d := by
  intro l1
  induction l1 with
  | nil =>
    intro l2 i d h
    simp at h
  | cons a l ih =>
    intro l2 i d h
    cases i with
    | zero => rfl
    | succ i =>
      simp only [List.cons_append, List.getD_cons_succ]
      exact ih l2 i d (by simp only [List.length_cons] at h; omega)

theorem getD_set_ne {α : Type} : ∀ (l : List α) (i j : Nat) (v d : α),
    ¬ i = j → (l.set i v).getD j d = l.getD j d := by
  intro l
  induction l with
  | nil => intro i j v d _; rfl
  | cons a l ih =>
    intro i j v d h
    cases i with
    | zero =>
      cases j with
      | zero => exact absurd rfl h
      | succ j => rfl
    | succ i =>
      cases j with
      | zero => rfl
      | succ j =>
        simp only [List.set_cons_succ, List.getD_cons_succ]
        exact ih i j v d (by omega)

theorem heapExtends_append (h l : List PyObj) : heapExtends h (h ++ l) := by
  constructor
  · simp
  · intro x hx
    unfold heapGet
    exact getD_append_left h l x _ hx

theorem copyRows_extends : ∀ (rs : List Nat) (h : List PyObj),
    heapExtends h (copyRows h rs).1 := by
  intro rs
  induction rs with
  | nil => intro h; exact heapExtends_refl h
  | cons r rs ih =>
    intro h
    simp only [copyRows, alloc]
    exact heapExtends_trans (heapExtends_append h _) (ih _)

theorem deepcopy_extends (h : List PyObj) (a : Nat) :
    heapExtends h (deepcopy h a).1 ∧ h.length ≤ (deepcopy h a).2 := by
  unfold deepcopy
  cases hobj : heapGet h a with
  | arr rows =>
    simp only [alloc]
    constructor
    · exact heapExtends_trans (copyRows_extends rows h) (heapExtends_append _ _)
    · exact (copyRows_extends rows h).1
  | row cs =>
    simp only [alloc]
    exact ⟨heapExtends_append h _, le_refl _⟩

theorem setArrSlot_extends (h h2 : List PyObj) (a row ca : Nat)
    (hext : heapExtends h h2) (ha : h.length ≤ a) :
    heapExtends h (setArrSlot h2 a row ca) := by
  unfold setArrSlot
  cases hobj : heapGet h2 a with
  | arr rows =>
    constructor
    · simp only [List.length_set]
      exact hext.1
    · intro x hx
      have hx2 := hext.2 x hx
      unfold heapGet at hx2 ⊢
      rw [getD_set_ne _ a x _ _ (by omega)]
      exact hx2
  | row cs => exact hext

theorem tryChoicesH_extends (recur : List PyObj → Nat → List PyObj × Option Nat)
    (a : Nat) (ver : List Int) (row : Nat)
    (hrec : ∀ h2 a2, heapExtends h2 (recur h2 a2).1) :
    ∀ (cs : List (List Bool)) (h : List PyObj),
      heapExtends h (tryChoicesH recur a ver row h cs).1 := by
  intro cs
  induction cs with
  | nil => intro h; exact heapExtends_refl h
  | cons c rest ih =>
    intro h
    simp only [tryChoicesH]
    have h1 := (deepcopy_extends h a).1
    have h2a := (deepcopy_extends h a).2
    have h3ext : heapExtends h
        (setArrSlot (alloc (deepcopy h a).1 (PyObj.row c)).1 (deepcopy h a).2 row
          (alloc (deepcopy h a).1 (PyObj.row c)).2) :=
      setArrSlot_extends h _ _ row _
        (heapExtends_trans h1 (heapExtends_append _ _)) h2a
    split <;> (try split) <;> (try split) <;>
      first
        | exact h3ext
        | exact heapExtends_trans h3ext (ih _)
        | exact heapExtends_trans h3ext (hrec _ _)
        | exact heapExtends_trans (heapExtends_trans h3ext (hrec _ _)) (ih _)

theorem solveH_extends : ∀ (fuel : Nat) (h : List PyObj) (a : Nat)
    (hor ver : List Int) (row : Nat),
    heapExtends h (solveH fuel h a hor ver row).1 := by
  intro fuel
  induction fuel with
  | zero =>
    intro h a hor ver row
    exact heapExtends_refl h
  | succ fuel ih =>
    intro h a hor ver row
    simp only [solveH]
    split
    · exact heapExtends_refl h
    · split
      · exact heapExtends_refl h
      · exact tryChoicesH_extends _ a ver row (fun h2 a2 => ih h2 a2 hor ver (row + 1)) _ h

theorem boardVal_congr (h h2 : List PyObj) (a : Nat)
    (hext : heapExtends h h2) (ha : a < h.length)
    (hrows : ∀ r ∈ arrRows (heapGet h a), r < h.length) :
    boardVal h2 a = boardVal h a := by
  unfold boardVal
  rw [hext.2 a ha]
  cases hobj : heapGet h a with
  | arr rows =>
    rw [hobj] at hrows
    simp only [arrRows] at hrows
    apply List.map_congr_left
    intro r hr
    unfold getRowVal
    rw [hext.2 r (hrows r hr)]
  | row cs => rfl

/-! ### Additional helper lemmas for the claims -/

theorem naturals_len0_pos_empty : ∀ t : Int, 0 < t → naturals t 0 = [] := by
  intro t ht
  unfold naturals pyRange
  have h0 : ((2 : Int) ^ (0 : Nat) - t).toNat = 0 := by
    have h1 : ((2 : Int) ^ (0 : Nat)) = 1 := pow_zero 2
    omega
  rw [h0]
  simp

/-! ### The claims -/

/-- Claim C1 (code bug): `solve` can return a board that violates a row
target.  Started on the all-false 1×1 board with rowTargets `[1]` and
colTargets `[0]`, the column check passes immediately, so `solve` returns the
input board; its row 0 has weighted sum `0`, but `rowTargets[0] = 1`. -/
theorem solve_returns_board_violating_row_target :
    solve [[false]] [1] [0] 0 = some [[false]] ∧
    (wsum [false] : Int) ≠ [1].getD 0 0 := by decide

/-- Claim C2 (counterexample): the board `[[false, true], [false, false]]`
with colTargets `[2, 0]` has column 1 exceeding its target (sum 1 > 0), yet
`state` returns `-2` (unfinished, not invalid), because the first mismatching
column (column 0, a deficit) masks the excess. -/
theorem state_unfinished_despite_excess_column :
    state [[false, true], [false, false]] [2, 0] = -2 ∧
    ¬ 0 < state [[false, true], [false, false]] [2, 0] ∧
    [2, 0].getD 1 0 < (colWeight [[false, true], [false, false]] 1 : Int) := by decide

/-- Claim C2 (amended): on a square board with targets of matching length,
`state` returns `0` exactly when every column's weighted sum equals its
target; otherwise it reports the first mismatching column in index order:
positive (invalid) exactly when that first mismatching column exceeds its
target, negative (unfinished) exactly when it falls short. -/
theorem state_first_mismatch_classification (board : List (List Bool)) (ver : List Int)
    (hver : ver.length = board.length)
    (hsq : ∀ r ∈ board, r.length = board.length) :
    (state board ver = 0 ↔
      ∀ c, c < board.length → (colWeight board c : Int) = ver.getD c 0) ∧
    (0 < state board ver ↔
      ∃ c, c < board.length ∧
        (∀ k, k < c → (colWeight board k : Int) = ver.getD k 0) ∧
        ver.getD c 0 < (colWeight board c : Int)) ∧
    (state board ver < 0 ↔
      ∃ c, c < board.length ∧
        (∀ k, k < c → (colWeight board k : Int) = ver.getD k 0) ∧
        (colWeight board c : Int) < ver.getD c 0) := by
  have hcw : ∀ c, c < board.length → (colVers board c : Int) = (colWeight board c : Int) := by
    intro c hc
    rw [colVers_eq_colWeight board c hsq hc]
  unfold state
  rw [stateFrom_eq_zero_iff board ver board.length 0,
    stateFrom_pos_iff board ver board.length 0,
    stateFrom_neg_iff board ver board.length 0]
  refine ⟨⟨?_, ?_⟩, ⟨?_, ?_⟩, ⟨?_, ?_⟩⟩
  · intro h c hc
    rw [← hcw c hc]
    exact h c (by omega) (by omega)
  · intro h k hk1 hk2
    rw [hcw k (by omega)]
    exact h k (by omega)
  · rintro ⟨c, h1, h2, h3, h4⟩
    rw [hcw c (by omega)] at h4
    refine ⟨c, by omega, ?_, h4⟩
    intro k hk
    rw [← hcw k (by omega)]
    exact h3 k (by omega) hk
  · rintro ⟨c, h1, h2, h3⟩
    rw [← hcw c (by omega)] at h3
    refine ⟨c, by omega, by omega, ?_, h3⟩
    intro k hk1 hk2
    rw [hcw k (by omega)]
    exact h2 k hk2
  · rintro ⟨c, h1, h2, h3, h4⟩
    rw [hcw c (by omega)] at h4
    refine ⟨c, by omega, ?_, h4⟩
    intro k hk
    rw [← hcw k (by omega)]
    exact h3 k (by omega) hk
  · rintro ⟨c, h1, h2, h3⟩
    rw [← hcw c (by omega)] at h3
    refine ⟨c, by omega, by omega, ?_, h3⟩
    intro k hk1 hk2
    rw [hcw k (by omega)]
    exact h2 k hk2

/-- Witness for the amended C2 on the solved 2×2 board of Scenario 3. -/
theorem state_first_mismatch_classification_witness :
    (state [[true, false], [false, true]] [1, 2] = 0 ↔
      ∀ c, c < 2 → (colWeight [[true, false], [false, true]] c : Int) = [1, 2].getD c 0) ∧
    (0 < state [[true, false], [false, true]] [1, 2] ↔
      ∃ c, c < 2 ∧
        (∀ k, k < c → (colWeight [[true, false], [false, true]] k : Int) = [1, 2].getD k 0) ∧
        [1, 2].getD c 0 < (colWeight [[true, false], [false, true]] c : Int)) ∧
    (state [[true, false], [false, true]] [1, 2] < 0 ↔
      ∃ c, c < 2 ∧
        (∀ k, k < c → (colWeight [[true, false], [false, true]] k : Int) = [1, 2].getD k 0) ∧
        (colWeight [[true, false], [false, true]] c : Int) < [1, 2].getD c 0) :=
  state_first_mismatch_classification [[true, false], [false, true]] [1, 2]
    (by decide) (by decide)

/-- Claim C3: for every target ≥ 0 and length ≥ 1, `naturals` returns only
vectors of the requested length whose weighted sum equals the target, without
duplicates, and every boolean pattern of that length satisfying the equation
appears. -/
theorem naturals_sound_nodup_exhaustive (t : Int) (d : Nat) (ht : 0 ≤ t) (hd : 1 ≤ d) :
    (∀ v ∈ naturals t d, v.length = d ∧ (wsum v : Int) = t) ∧
    (naturals t d).Nodup ∧
    (∀ v : List Bool, v.length = d → (wsum v : Int) = t → v ∈ naturals t d) :=
  ⟨naturals_sound t d ht hd, naturals_nodup t d ht hd, naturals_exhaustive t d hd⟩

/-- Witness for C3 at target 2, length 2. -/
theorem naturals_sound_nodup_exhaustive_witness :
    (0 : Int) ≤ 2 ∧ (1 : Nat) ≤ 2 ∧
    ((∀ v ∈ naturals 2 2, v.length = 2 ∧ (wsum v : Int) = 2) ∧
      (naturals 2 2).Nodup ∧
      (∀ v : List Bool, v.length = 2 → (wsum v : Int) = 2 → v ∈ naturals 2 2)) :=
  ⟨by decide, by decide, naturals_sound_nodup_exhaustive 2 2 (by decide) (by decide)⟩

/-- Claim C4 (code bug): on the unsatisfiable N=3 scenario with rowTargets
`[6, 6, 6]` and colTargets `[1, 1, 1]`, `solve` does not report "no
solution": after filling row 0 with `[true, true, true]` every column sum is
already 1, so the column check declares the board solved and `solve` returns
it, although rows 1 and 2 (weighted sum 0) violate their row target 6. -/
theorem solve_unsat_scenario_returns_board :
    solve [[false, false, false], [false, false, false], [false, false, false]]
      [6, 6, 6] [1, 1, 1] 0 =
      some [[true, true, true], [false, false, false], [false, false, false]] ∧
    (wsum [false, false, false] : Int) ≠ [6, 6, 6].getD 1 0 := by decide

/-- Claim C5 (counterexample): with length 0 and target 0, `naturals` does
not return the empty vector: Python renders `0` with minimum width `0` as the
one-character string `"0"`, so the result is the one-cell all-false vector
`[false]`, and the empty vector is not in the result. -/
theorem naturals_length0_not_empty_vector :
    naturals 0 0 = [[false]] ∧ naturals 0 0 ≠ [([] : List Bool)] := by decide

/-- Claim C5 (amended): with length 0, `naturals` returns exactly one vector
for target 0, namely the one-cell all-false vector `[false]` (not the empty
vector), and the empty sequence for every positive target; and for every
length ≥ 1 the result for target 0 contains the all-false vector of that
length. -/
theorem naturals_zero_edge_cases :
    naturals 0 0 = [[false]] ∧
    (∀ t : Int, 0 < t → naturals t 0 = []) ∧
    (∀ d : Nat, 1 ≤ d → List.replicate d false ∈ naturals 0 d) := by
  refine ⟨by decide, naturals_len0_pos_empty, ?_⟩
  intro d hd
  apply naturals_exhaustive 0 d hd
  · simp
  · simp [wsum, wsumFrom_replicate_false]

/-- Witness for the amended C5 at length 3. -/
theorem naturals_zero_edge_cases_witness :
    List.replicate 3 false ∈ naturals 0 3 :=
  naturals_zero_edge_cases.2.2 3 (by decide)

/-- Claim C6 (counterexample): at length 0 with the negative target `-1`,
`naturals` is not empty: Python formats `-1` as the string `"-1"`, the digit
`'1'` sits at index 1 with weight `0 - 1 = -1`, so the loop accepts it and
returns the two-cell vector `[true, false]`, although no vector of length 0
has weighted sum `-1`. -/
theorem naturals_negative_target_nonempty :
    naturals (-1) 0 = [[true, false]] ∧ naturals (-1) 0 ≠ [] := by decide

/-- Claim C6 (amended): for every length ≥ 1 the Row Expander returns the
empty sequence whenever no boolean vector of that length has the required
weighted sum — in particular for negative targets and for targets above the
maximum possible sum; for length 0 this holds for every positive target (but
not for some negative ones). -/
theorem naturals_empty_when_unsatisfiable :
    (∀ (d : Nat) (t : Int), 1 ≤ d →
      (∀ v : List Bool, v.length = d → (wsum v : Int) ≠ t) → naturals t d = []) ∧
    (∀ t : Int, 0 < t → naturals t 0 = []) := by
  refine ⟨?_, naturals_len0_pos_empty⟩
  intro d t hd hno
  rcases lt_or_le t 0 with ht | ht
  · exact naturals_neg_empty t d hd ht
  · cases hn : naturals t d with
    | nil => rfl
    | cons v rest =>
      exfalso
      have hv : v ∈ naturals t d := by
        rw [hn]
        exact List.mem_cons_self v rest
      have hs := naturals_sound t d ht hd v hv
      exact hno v hs.1 hs.2

/-- Witness for the amended C6: an unsatisfiable negative target at
length 1. -/
theorem naturals_empty_when_unsatisfiable_witness : naturals (-7) 1 = [] :=
  naturals_empty_when_unsatisfiable.1 1 (-7) (by decide) (fun v _ => by omega)

/-- Claim C7: every non-`none` result of `solve` is classified as solved by
the shared consistency check `state` (all column sums equal their targets);
the "no solution" outcome is the distinct `Option.none` variant, never a
sentinel board. -/
theorem solve_result_passes_state (board : List (List Bool)) (hor ver : List Int)
    (row : Nat) (r : List (List Bool)) :
    solve board hor ver row = some r → state r ver = 0 :=
  fun h => solveF_some _ board hor ver row r h

/-- Witness for C7 on a concrete run that returns a board. -/
theorem solve_result_passes_state_witness : state [[false]] [0] = 0 :=
  solve_result_passes_state [[false]] [7] [0] 0 [[false]] (by decide)

/-- Claim C8: for N = 0 (empty board and targets) `solve` returns the empty
board, which the consistency check classifies as solved. -/
theorem solve_empty_board_trivially_solved :
    solve [] [] [] 0 = some [] ∧ state [] [] = 0 := by decide

/-- Claim C9: `solve` never mutates the board object supplied by the caller.
In the heap model every pre-existing object — in particular the caller's
outer board list and all of its row objects — is unchanged after the call,
because every modification targets a fresh `deepcopy`; the target vectors are
immutable values of the model and are untouched as well. -/
theorem solveH_preserves_caller_board (fuel : Nat) (h : List PyObj) (a : Nat)
    (hor ver : List Int) (row : Nat) (ha : a < h.length)
    (hrows : ∀ r ∈ arrRows (heapGet h a), r < h.length) :
    (∀ x, x < h.length →
      heapGet (solveH fuel h a hor ver row).1 x = heapGet h x) ∧
    boardVal (solveH fuel h a hor ver row).1 a = boardVal h a := by
  have hext := solveH_extends fuel h a hor ver row
  exact ⟨hext.2, boardVal_congr h _ a hext ha hrows⟩

/-- Witness for C9 on a 1×1 board whose solving loop copies and fills a
row. -/
theorem solveH_preserves_caller_board_witness :
    (∀ x, x < 2 →
      heapGet (solveH 2 [PyObj.arr [1], PyObj.row [false]] 0 [1] [1] 0).1 x =
        heapGet [PyObj.arr [1], PyObj.row [false]] x) ∧
    boardVal (solveH 2 [PyObj.arr [1], PyObj.row [false]] 0 [1] [1] 0).1 0 =
      boardVal [PyObj.arr [1], PyObj.row [false]] 0 :=
  solveH_preserves_caller_board 2 [PyObj.arr [1], PyObj.row [false]] 0 [1] [1] 0
    (by decide) (by decide)

/-- Claim C10: `solve` is deterministic — two runs on identical inputs return
identical results (the embedding is a pure function of its four arguments;
the source reads no external state inside `solve`). -/
theorem solve_deterministic (b1 b2 : List (List Bool)) (h1 h2 v1 v2 : List Int)
    (r1 r2 : Nat) (hb : b1 = b2) (hh : h1 = h2) (hv : v1 = v2) (hr : r1 = r2) :
    solve b1 h1 v1 r1 = solve b2 h2 v2 r2 := by
  subst hb
  subst hh
  subst hv
  subst hr
  rfl

/-- Witness for C10 on a concrete pair of identical runs. -/
theorem solve_deterministic_witness :
    solve [[false]] [1] [1] 0 = solve [[false]] [1] [1] 0 :=
  solve_deterministic [[false]] [[false]] [1] [1] [1] [1] 0 0 rfl rfl rfl rfl
